import Mathlib

/-!
Shallow embedding of the `kuro` Bitcask-style key/value store
(`src/bitcask.rs`) and proofs about it.

Modelling conventions:

* Bytes are `Nat`s (with values below 256 on every byte produced by the
  encoders); byte strings are `List Nat`.
* `u64` arithmetic appears only where the code serialises integers:
  `toLE`/`fromLE` model `u64::to_le_bytes`/`u64::from_le_bytes`, so
  `fromLE (toLE n) = n % 2^64`.
* The filesystem directory is a list of files, each a `DFile` with the
  numeric stem (`fid`), a flag telling `.hint` apart from `.dat`, and its
  byte contents.  Files whose stems do not parse as integers are ignored
  by every routine in the source and are not modelled.
* Wall-clock reads (`SystemTime::now`) are passed in as explicit `now` /
  `ts` parameters.
* `read_exact` succeeds exactly when the requested number of bytes is
  available at the cursor; the source frequently discards its result
  (`let _ = ...`), in which case the model keeps the previous buffer
  contents (the behaviour of a failed read at end of file).
* Fallible operations return `Except BitcaskError`; places where the
  source calls `.expect(..)` (a panic) are modelled with an outer
  `Option`, `none` standing for the panic.
* The `put` of the source ignores the result of `File::write`; `putW`
  takes the number of bytes the OS actually wrote as a parameter, and
  `put` is the run where the write completed fully.
-/

/-- The tombstone sentinel `b"__TOMBSTONE__"` (13 ASCII bytes). -/
def TOMBSTONE : List Nat := [95, 95, 84, 79, 77, 66, 83, 84, 79, 78, 69, 95, 95]

/-- `u64::to_le_bytes`: the eight little-endian base-256 digits of `n`. -/
def toLE (n : Nat) : List Nat :=
  [n % 256, n / 256 % 256, n / 65536 % 256, n / 16777216 % 256,
   n / 4294967296 % 256, n / 1099511627776 % 256,
   n / 281474976710656 % 256, n / 72057594037927936 % 256]

/-- `u64::from_le_bytes` on an 8-byte buffer. -/
def fromLE (l : List Nat) : Nat :=
  l.foldr (fun b acc => b + 256 * acc) 0

/-- The bytes `[pos, pos+n)` of a byte string. -/
def byteSlice (l : List Nat) (pos n : Nat) : List Nat :=
  (l.drop pos).take n

/-- The in-memory keydir entry (`struct KeyDir` in the source). -/
structure KeyDir where
  file_id : Nat
  value_size : Nat
  value_pos : Nat
  timestamp : Nat
deriving DecidableEq, Repr

/-- The keydir: `HashMap<Vec<u8>, KeyDir>` modelled as an association list
whose keys are unique (insertion removes the previous binding). -/
abbrev KDMap := List (List Nat × KeyDir)

/-- `HashMap::get`. -/
def mapGet : KDMap → List Nat → Option KeyDir
  | [], _ => none
  | p :: rest, k => if p.1 = k then some p.2 else mapGet rest k

/-- Drop every binding of a key (the overwrite half of `HashMap::insert`). -/
def eraseKey : KDMap → List Nat → KDMap
  | [], _ => []
  | p :: rest, k => if p.1 = k then eraseKey rest k else p :: eraseKey rest k

/-- `HashMap::insert` (replacing any previous binding of the key). -/
def mapInsert (m : KDMap) (k : List Nat) (e : KeyDir) : KDMap :=
  (k, e) :: eraseKey m k

/-- One file of the data directory: numeric stem `fid`, whether the
extension is `.hint` (otherwise `.dat`), and the byte contents. -/
structure DFile where
  fid : Nat
  isHint : Bool
  data : List Nat
deriving DecidableEq, Repr

/-- Contents of `<fid>.dat`, when that file exists (`File::open`). -/
def lookupDat : List DFile → Nat → Option (List Nat)
  | [], _ => none
  | f :: fs, fid =>
    if f.fid = fid ∧ f.isHint = false then some f.data else lookupDat fs fid

/-- Whether `<fid>.dat` exists. -/
def datExists (files : List DFile) (fid : Nat) : Bool :=
  (lookupDat files fid).isSome

/-- `<fid>.hint` lookup used by `build_keydir` (`hint_filepath.exists()`
followed by opening it). -/
def findHint : List DFile → Nat → Option DFile
  | [], _ => none
  | f :: fs, fid =>
    if f.fid = fid ∧ f.isHint = true then some f else findHint fs fid

/-- Whether `<fid>.hint` exists. -/
def hintExists (files : List DFile) (fid : Nat) : Bool :=
  (findHint files fid).isSome

/-- Append bytes to `<fid>.dat` (a `write` on a file opened in append mode). -/
def appendDat : List DFile → Nat → List Nat → List DFile
  | [], _, _ => []
  | f :: fs, fid, d =>
    (if f.fid = fid ∧ f.isHint = false then ⟨f.fid, f.isHint, f.data ++ d⟩ else f)
      :: appendDat fs fid d

/-- Append bytes to `<fid>.hint`. -/
def appendHint : List DFile → Nat → List Nat → List DFile
  | [], _, _ => []
  | f :: fs, fid, d =>
    (if f.fid = fid ∧ f.isHint = true then ⟨f.fid, f.isHint, f.data ++ d⟩ else f)
      :: appendHint fs fid d

/-- `OpenOptions::new().append(true).create(true)` on `<fid>.dat`:
creates the file empty when absent, otherwise leaves it as is. -/
def ensureDat (files : List DFile) (fid : Nat) : List DFile :=
  if datExists files fid then files else files ++ [⟨fid, false, []⟩]

/-- `OpenOptions::new().append(true).create(true)` on `<fid>.hint`. -/
def ensureHint (files : List DFile) (fid : Nat) : List DFile :=
  if hintExists files fid then files else files ++ [⟨fid, true, []⟩]

/-- `DataFileEntry::to_bytes`: `crc | timestamp | key_size | value_size |
key | value`, all integers little-endian u64. -/
def encodeEntry (crc ts : Nat) (key value : List Nat) : List Nat :=
  toLE crc ++ toLE ts ++ toLE key.length ++ toLE value.length ++ key ++ value

/-- `HintFileEntry::to_bytes`: `timestamp | key_size | value_size |
value_pos | key`. -/
def encodeHint (ts ksz vsz vpos : Nat) (key : List Nat) : List Nat :=
  toLE ts ++ toLE ksz ++ toLE vsz ++ toLE vpos ++ key

/-- `read_exact` of an 8-byte buffer at `pos`, decoded little-endian;
fails (`none`) when fewer than 8 bytes remain. -/
def readU64 (data : List Nat) (pos : Nat) : Option Nat :=
  if pos + 8 ≤ data.length then some (fromLE (byteSlice data pos 8)) else none

/-- The errors of the source (`enum BitcaskError`); the payload of
`Io(std::io::Error)` is dropped.  Note the source has no
`InvalidArgument` constructor. -/
inductive BitcaskError where
  | Io
  | InvalidFileFormat
  | KeyNotFound
  | DirNotFound
deriving DecidableEq, Repr

/-- The `.dat`-scanning loop of `build_keydir`.  `pos` is `file_pos`,
`buf` the value of the reused 8-byte buffer (failed `read_exact`s are
discarded with `let _` and leave the buffer unchanged); the key read is
the one read whose failure is propagated (`read_exact(&mut key)?`).
`fuel` bounds the iteration count; each iteration advances `pos` by at
least 32 bytes, so `data.length + 1` iterations always suffice. -/
def datLoop (fid : Nat) (data : List Nat) :
    Nat → Nat → Nat → KDMap → Except BitcaskError KDMap
  | 0, _, _, m => .ok m
  | fuel + 1, pos, buf, m =>
    if pos < data.length then
      let b1 := (readU64 data (pos + 8)).getD buf
      let b2 := (readU64 data (pos + 16)).getD b1
      let b3 := (readU64 data (pos + 24)).getD b2
      if b2 ≤ data.length - (pos + 32) then
        datLoop fid data fuel (pos + 32 + b2 + b3) b3
          (mapInsert m (byteSlice data (pos + 32) b2) ⟨fid, b3, pos + 32 + b2, b1⟩)
      else .error .Io
    else .ok m

/-- Scan a `.dat` file into the keydir (the hint-less branch of
`build_keydir`). -/
def scanDat (fid : Nat) (data : List Nat) (m : KDMap) : Except BitcaskError KDMap :=
  datLoop fid data (data.length + 1) 0 0 m

/-- The `.hint`-reading loop of `build_keydir`.  All read failures are
discarded (`let _`), so a failed header read reuses the stale buffer and
a failed key read leaves the freshly zeroed key buffer. -/
def hintLoop (fid : Nat) (data : List Nat) :
    Nat → Nat → Nat → KDMap → KDMap
  | 0, _, _, m => m
  | fuel + 1, pos, buf, m =>
    if pos < data.length then
      let b1 := (readU64 data pos).getD buf
      let b2 := (readU64 data (pos + 8)).getD b1
      let b3 := (readU64 data (pos + 16)).getD b2
      let b4 := (readU64 data (pos + 24)).getD b3
      let key := if b2 ≤ data.length - (pos + 32) then byteSlice data (pos + 32) b2
                 else List.replicate b2 0
      hintLoop fid data fuel (pos + 32 + b2) b4
        (mapInsert m key ⟨fid, b3, b4, b1⟩)
    else m

/-- Read a `.hint` file into the keydir. -/
def scanHint (fid : Nat) (data : List Nat) (m : KDMap) : KDMap :=
  hintLoop fid data (data.length + 1) 0 0 m

/-- The candidate segments of a directory: the `.dat` entries. -/
def dats (files : List DFile) : List DFile :=
  files.filter (fun f => f.isHint = false)

/-- Insert a file into a list sorted by ascending `fid`. -/
def insertSorted (f : DFile) : List DFile → List DFile
  | [] => [f]
  | g :: gs => if f.fid ≤ g.fid then f :: g :: gs else g :: insertSorted f gs

/-- Sort files by ascending `fid` (the `sort_by` on `get_file_id`). -/
def sortByFid (fs : List DFile) : List DFile :=
  fs.foldr insertSorted []

/-- Ingest one candidate segment: prefer its `.hint` sibling, else scan
the `.dat` file. -/
def processFile (files : List DFile) (m : KDMap) (f : DFile) :
    Except BitcaskError KDMap :=
  match findHint files f.fid with
  | some h => .ok (scanHint f.fid h.data m)
  | none => scanDat f.fid f.data m

/-- The main loop of `build_keydir` over the sorted candidates, with the
`processed` set of already-ingested `file_id`s. -/
def bkLoop (files : List DFile) :
    List DFile → List Nat → KDMap → Except BitcaskError (KDMap × List Nat)
  | [], p, m => .ok (m, p)
  | f :: fs, p, m =>
    if f.fid ∈ p then bkLoop files fs p m
    else
      match processFile files m f with
      | .error e => .error e
      | .ok m' => bkLoop files fs (f.fid :: p) m'

/-- `build_keydir(path)`: reconstruct the keydir from the directory. -/
def build_keydir (files : List DFile) : Except BitcaskError KDMap :=
  match bkLoop files (sortByFid (dats files)) [] [] with
  | .error e => .error e
  | .ok (m, _) => .ok m

/-- `gen_file_id(dir)` = `max(now_unix_seconds, max parseable stem) + 1`. -/
def gen_file_id (now : Nat) (files : List DFile) : Nat :=
  (files.foldl (fun acc f => max acc f.fid) now) + 1

/-- The merge `file_id`: `now_unix_seconds`, incremented once when
`<now>.dat` already exists (the single `exists()` check in `merge`). -/
def merge_file_id (now : Nat) (files : List DFile) : Nat :=
  if datExists files now then now + 1 else now

/-- The `Bitcask` handle: keydir, active segment id, `writer_pos`, and the
data directory contents (`data_path` is the single modelled directory). -/
structure State where
  key_dir : KDMap
  active_file_id : Nat
  writer_pos : Nat
  files : List DFile
deriving DecidableEq, Repr

/-- `Bitcask::open(path)`: allocate a fresh active segment, create it,
then rebuild the keydir from the directory (which now also contains the
new empty segment). -/
def openB (now : Nat) (files : List DFile) : Except BitcaskError State :=
  let fid := gen_file_id now files
  let files' := ensureDat files fid
  match build_keydir files' with
  | .error e => .error e
  | .ok m => .ok ⟨m, fid, 0, files'⟩

/-- `Bitcask::put` with the io outcome made explicit: `written` is the
byte count the OS actually wrote, whose value the source discards
(`let _ = self.active_file.write(&data)`).  The keydir insertion and the
`writer_pos` advance (by the full `data.len()`) happen unconditionally. -/
def putW (st : State) (ts : Nat) (key value : List Nat) (written : Nat) : State :=
  let value_pos := st.writer_pos + 8 + 8 + 8 + 8 + key.length
  let kd : KeyDir := ⟨st.active_file_id, value.length, value_pos, ts⟩
  let data := encodeEntry 0 ts key value
  { st with
    files := appendDat st.files st.active_file_id (data.take written),
    writer_pos := st.writer_pos + data.length,
    key_dir := mapInsert st.key_dir key kd }

/-- `Bitcask::put` when the append fully succeeds. -/
def put (st : State) (ts : Nat) (key value : List Nat) : State :=
  putW st ts key value (encodeEntry 0 ts key value).length

/-- `Bitcask::delete`: a put of the tombstone sentinel. -/
def delete (st : State) (ts : Nat) (key : List Nat) : State :=
  put st ts key TOMBSTONE

/-- `Bitcask::get`: keydir lookup, `File::open` of the owning segment
(an absent file is the propagated `Err(Io)`), then `read_exact_at`
(whose failure is a panic, modelled as `none`). -/
def get (st : State) (key : List Nat) : Option (Except BitcaskError (List Nat)) :=
  match mapGet st.key_dir key with
  | none => some (.error .KeyNotFound)
  | some kd =>
    match lookupDat st.files kd.file_id with
    | none => some (.error .Io)
    | some data =>
      if kd.value_pos + kd.value_size ≤ data.length then
        some (.ok (byteSlice data kd.value_pos kd.value_size))
      else none

/-- `Bitcask::list_keys`: always `Some` of the keydir's keys. -/
def list_keys (st : State) : Option (List (List Nat)) :=
  some (st.key_dir.map Prod.fst)

/-- One iteration of the merge loop over the snapshot keydir: look the key
up through the handle (`self.get`), skip it on `Err` or on the tombstone
sentinel, otherwise append a data record and a hint record.  The
accumulator carries the merge file bytes, the hint file bytes and
`write_pos`; `none` records that a `get` panicked. -/
def mergeStep (st : State) (now : Nat)
    (acc : Option (List Nat × List Nat × Nat)) (kv : List Nat × KeyDir) :
    Option (List Nat × List Nat × Nat) :=
  match acc with
  | none => none
  | some (md, hd, wp) =>
    match get st kv.1 with
    | none => none
    | some (.error _) => some (md, hd, wp)
    | some (.ok value) =>
      if value = TOMBSTONE then some (md, hd, wp)
      else
        let key := kv.1
        let data := encodeEntry 0 now key value
        let value_pos := wp + 8 + 8 + 8 + 8 + key.length
        some (md ++ data, hd ++ encodeHint now key.length value.length value_pos key,
              wp + data.length)

/-- `Bitcask::merge(dirpath)` with `dirpath` the handle's own directory
(the supported use).  Snapshot the keydir from disk, allocate the merge
id, create both merge files, rewrite the live records, delete every file
whose stem is neither the merge id nor the old active id, and adopt the
merge segment and the snapshot keydir. -/
def merge (st : State) (now : Nat) : Option (Except BitcaskError State) :=
  match build_keydir st.files with
  | .error e => some (.error e)
  | .ok keydir =>
    let fid := merge_file_id now st.files
    let files₁ := ensureHint (ensureDat st.files fid) fid
    match keydir.foldl (mergeStep st now) (some ([], [], 0)) with
    | none => none
    | some (md, hd, wp) =>
      let files₂ := appendHint (appendDat files₁ fid md) fid hd
      let files₃ := files₂.filter (fun f => f.fid = fid ∨ f.fid = st.active_file_id)
      some (.ok ⟨keydir, fid, wp, files₃⟩)

/-! ### Basic list and codec lemmas -/

theorem toLE_length (n : Nat) : (toLE n).length = 8 := rfl

theorem fromLE_toLE (n : Nat) (h : n < 18446744073709551616) :
    fromLE (toLE n) = n := by
  simp only [fromLE, toLE, List.foldr]
  omega

theorem drop_append_add (a : List Nat) :
    ∀ (b : List Nat) (i : Nat), (a ++ b).drop (a.length + i) = b.drop i := by
  induction a with
  | nil => intro b i; simp
  | cons x xs ih =>
    intro b i
    simp [Nat.succ_add, ih b i]

theorem byteSlice_append_add (a b : List Nat) (i n : Nat) :
    byteSlice (a ++ b) (a.length + i) n = byteSlice b i n := by
  simp [byteSlice, drop_append_add]

theorem drop_append_le (a : List Nat) :
    ∀ (b : List Nat) (p : Nat), p ≤ a.length → (a ++ b).drop p = a.drop p ++ b := by
  induction a with
  | nil =>
    intro b p hp
    have : p = 0 := by simpa using hp
    subst this; simp
  | cons x xs ih =>
    intro b p hp
    cases p with
    | zero => simp
    | succ q => simpa using ih b q (by simpa using hp)

theorem take_append_le (a : List Nat) :
    ∀ (b : List Nat) (n : Nat), n ≤ a.length → (a ++ b).take n = a.take n := by
  induction a with
  | nil =>
    intro b n hn
    have : n = 0 := by simpa using hn
    subst this; simp
  | cons x xs ih =>
    intro b n hn
    cases n with
    | zero => simp
    | succ q => simpa using ih b q (by simpa using hn)

theorem byteSlice_append_left (a b : List Nat) (pos n : Nat) (h : pos + n ≤ a.length) :
    byteSlice (a ++ b) pos n = byteSlice a pos n := by
  have hp : pos ≤ a.length := by omega
  simp only [byteSlice, drop_append_le a b pos hp]
  exact take_append_le _ _ _ (by simp [Nat.le_sub_iff_add_le hp]; omega)

theorem byteSlice_length_self (l : List Nat) : byteSlice l 0 l.length = l := by
  simp [byteSlice]

/-! ### Keydir map lemmas -/

theorem mapGet_insert_self (m : KDMap) (k : List Nat) (e : KeyDir) :
    mapGet (mapInsert m k e) k = some e := by
  simp [mapGet, mapInsert]

theorem mapGet_eraseKey_ne (m : KDMap) (k q : List Nat) (h : q ≠ k) :
    mapGet (eraseKey m k) q = mapGet m q := by
  induction m with
  | nil => simp [eraseKey]
  | cons p rest ih =>
    by_cases hk : p.1 = k
    · have hq : ¬ p.1 = q := by rw [hk]; exact fun hh => h hh.symm
      have hkq : ¬ k = q := fun hh => h hh.symm
      simp [eraseKey, mapGet, hk, hq, hkq, ih]
    · simp only [eraseKey, hk, if_false, mapGet]
      by_cases hq : p.1 = q
      · simp [hq]
      · simp [hq, ih]

theorem mapGet_insert_ne (m : KDMap) (k q : List Nat) (e : KeyDir) (h : q ≠ k) :
    mapGet (mapInsert m k e) q = mapGet m q := by
  have hk : ¬ k = q := fun hh => h hh.symm
  simp [mapGet, mapInsert, hk, mapGet_eraseKey_ne m k q h]

theorem mem_keys_iff_isSome (m : KDMap) (k : List Nat) :
    k ∈ m.map Prod.fst ↔ (mapGet m k).isSome = true := by
  induction m with
  | nil => simp [mapGet]
  | cons p rest ih =>
    by_cases h : p.1 = k
    · simp [mapGet, h]
    · have hne : ¬ k = p.1 := fun hh => h hh.symm
      simp [mapGet, h, hne, ih]

/-! ### gen_file_id lemmas -/

theorem foldl_max_le_init (l : List DFile) :
    ∀ acc : Nat, acc ≤ l.foldl (fun a f => max a f.fid) acc := by
  induction l with
  | nil => intro acc; simp
  | cons f fs ih =>
    intro acc
    exact le_trans (le_max_left acc f.fid) (ih (max acc f.fid))

theorem foldl_max_le_mem (l : List DFile) :
    ∀ (f : DFile), f ∈ l → ∀ acc : Nat, f.fid ≤ l.foldl (fun a g => max a g.fid) acc := by
  induction l with
  | nil => intro f hf; simp at hf
  | cons g gs ih =>
    intro f hf acc
    rcases List.mem_cons.mp hf with h | h
    · subst h
      exact le_trans (le_max_right acc f.fid) (foldl_max_le_init gs (max acc f.fid))
    · exact ih f h (max acc g.fid)

/-! ### Concrete scenario: a handle freshly opened on an empty directory -/

/-- The handle produced by `open` on an empty directory at unix second
100: `gen_file_id` yields `max(100, nothing) + 1 = 101`, the active
segment `101.dat` is created empty, and the rebuilt keydir is empty. -/
def st101 : State := ⟨[], 101, 0, [⟨101, false, []⟩]⟩

theorem openB_empty_dir : openB 100 [] = .ok st101 := rfl

/-- C1: after a successful `merge` with no concurrent writes, the claim
says every live key's keydir entry carries the merge segment's
`file_id`.  In the code `merge` installs the pre-merge snapshot keydir
unchanged (`self.key_dir = keydir`), so the entry for the live key `[1]`
still carries the old segment id 101 even though the merge segment (and
new active segment) is 200. -/
theorem C1_merge_keydir_not_condensed :
    (merge (put st101 10 [1] [2]) 200).map (Except.map State.active_file_id)
      = some (.ok 200) ∧
    (merge (put st101 10 [1] [2]) 200).map
        (Except.map (fun st => mapGet st.key_dir [1]))
      = some (.ok (some ⟨101, 1, 33, 10⟩)) ∧
    (101 : Nat) ≠ 200 :=
  ⟨rfl, rfl, by decide⟩

/-- C2: the claim says that after `merge` no key whose most recent write
was the tombstone remains in the keydir (hence not in `list_keys()`).
In the code `merge` skips tombstoned keys when writing the merge segment
but installs the snapshot keydir without removing them: after
`put [1] [2]; delete [1]; merge`, `get [1]` is the tombstone sentinel
and `list_keys()` still returns `[[1]]`. -/
theorem C2_tombstone_survives_merge :
    get (delete (put st101 10 [1] [2]) 11 [1]) [1] = some (.ok TOMBSTONE) ∧
    (merge (delete (put st101 10 [1] [2]) 11 [1]) 200).map (Except.map list_keys)
      = some (.ok (some [[1]])) ∧
    (merge (delete (put st101 10 [1] [2]) 11 [1]) 200).map
        (Except.map (fun st => mapGet st.key_dir [1]))
      = some (.ok (some ⟨101, 13, 67, 11⟩)) :=
  ⟨rfl, rfl, rfl⟩

/-- C3: the claim says a failed disk append makes `put` report `IoError`
and leave the keydir unchanged.  The code discards the result of
`File::write` (`let _ = ...`), returns `()` (no error can be reported),
and unconditionally advances `writer_pos` by the full record length and
inserts the keydir entry: here the OS wrote 0 of the 34 record bytes
(the file is unchanged), yet the keydir gained the entry. -/
theorem C3_keydir_updated_on_failed_write :
    mapGet st101.key_dir [1] = none ∧
    mapGet (putW st101 10 [1] [2] 0).key_dir [1] = some ⟨101, 1, 33, 10⟩ ∧
    (putW st101 10 [1] [2] 0).writer_pos = 34 ∧
    (putW st101 10 [1] [2] 0).files = st101.files :=
  ⟨rfl, rfl, rfl, rfl⟩

/-- C4 counterexample: the claim says `put(empty_key, value)` is rejected
with `InvalidArgument` and leaves the store unchanged.  The code never
validates the key (and `BitcaskError` has no `InvalidArgument`
constructor): the empty key is appended and indexed like any other key,
and `get` afterwards returns its value. -/
theorem C4_empty_key_accepted :
    mapGet st101.key_dir [] = none ∧
    mapGet (put st101 10 [] [7]).key_dir [] = some ⟨101, 1, 32, 10⟩ ∧
    get (put st101 10 [] [7]) [] = some (.ok [7]) :=
  ⟨rfl, rfl, rfl⟩

/-- C4 amended: `put` performs no key validation, so the empty key is
stored like any other key: its keydir entry points at the value bytes of
the appended record (`value_pos = writer_pos + 32`). -/
theorem C4_empty_key_stored (st : State) (ts : Nat) (v : List Nat) :
    mapGet (put st ts [] v).key_dir [] =
      some ⟨st.active_file_id, v.length, st.writer_pos + 32, ts⟩ := by
  have h32 : st.writer_pos + 8 + 8 + 8 + 8 + ([] : List Nat).length
      = st.writer_pos + 32 := by simp
  simp only [put, putW, h32]
  exact mapGet_insert_self _ _ _

/-- C5 counterexample: the claim says every newly assigned `file_id` is
strictly greater than every previously existing or assigned one.  `open`
on an empty directory at unix second 100 assigns 101, but a `merge` in
the same second assigns `merge_file_id = 100` (the merge code uses the
raw clock with a single collision check instead of `gen_file_id`), and
100 < 101. -/
theorem C5_merge_id_not_monotonic :
    openB 100 [] = .ok st101 ∧
    (merge st101 100).map (Except.map State.active_file_id) = some (.ok 100) ∧
    (100 : Nat) < 101 :=
  ⟨rfl, rfl, by decide⟩

/-- C5 amended: the ids assigned by `open` (via `gen_file_id`) are
strictly greater than the clock and than every file id present in the
directory; the merge id (`now`, or `now + 1` when `<now>.dat` exists)
enjoys no such guarantee. -/
theorem C5_open_id_exceeds_existing (now : Nat) (files : List DFile) :
    now < gen_file_id now files ∧
    ∀ f ∈ files, f.fid < gen_file_id now files := by
  constructor
  · exact Nat.lt_succ_of_le (foldl_max_le_init files now)
  · intro f hf
    exact Nat.lt_succ_of_le (foldl_max_le_mem files f hf now)

theorem C5_open_id_exceeds_existing_witness :
    (7 : Nat) < gen_file_id 7 [⟨3, false, []⟩] ∧
    (3 : Nat) < gen_file_id 7 [⟨3, false, []⟩] :=
  ⟨(C5_open_id_exceeds_existing 7 [⟨3, false, []⟩]).1,
   (C5_open_id_exceeds_existing 7 [⟨3, false, []⟩]).2 ⟨3, false, []⟩ (by simp)⟩

/-- The C8 failing input: one complete record (key `[1]`, value `[2]`)
followed by a truncated tail: a complete 32-byte header announcing
`key_size = 3`, but only one byte of key before end of file. -/
def c8file : List Nat :=
  encodeEntry 0 5 [1] [2] ++ toLE 0 ++ toLE 6 ++ toLE 3 ++ toLE 0 ++ [9]

/-- C8: the claim says a data file whose tail is an incomplete record is
scanned up to the truncation point and the scan returns without error,
keeping the complete records.  In the code the key read is
`read_exact(&mut key)?`, so a truncated key propagates `Err(Io)` out of
`build_keydir` and no keydir is produced, while the same file without
the truncated tail scans successfully into one entry. -/
theorem C8_truncated_tail_is_io_error :
    build_keydir [⟨7, false, c8file⟩] = .error .Io ∧
    scanDat 7 (encodeEntry 0 5 [1] [2]) [] = .ok [([1], ⟨7, 1, 33, 5⟩)] :=
  ⟨rfl, rfl⟩

/-- C10: `list_keys()` never returns `None`: on every handle state it
returns `Some` of a collection holding exactly the keydir's keys (a key
is in the returned collection iff the keydir lookup succeeds on it). -/
theorem C10_list_keys_total (st : State) :
    (list_keys st).isSome = true ∧
    ∀ k, k ∈ (list_keys st).getD [] ↔ (mapGet st.key_dir k).isSome = true := by
  refine ⟨rfl, fun k => ?_⟩
  simpa [list_keys] using mem_keys_iff_isSome st.key_dir k

theorem C10_list_keys_total_witness :
    ([1] ∈ (list_keys (put st101 10 [1] [2])).getD []) ↔
      (mapGet (put st101 10 [1] [2]).key_dir [1]).isSome = true :=
  (C10_list_keys_total (put st101 10 [1] [2])).2 [1]

/-! ### Operations applied to an open handle, and the abstract map -/

/-- The mutating operations of the public contract, each carrying the
wall-clock second at which it runs. -/
inductive Op where
  | putOp (ts : Nat) (key value : List Nat)
  | delOp (ts : Nat) (key : List Nat)
deriving DecidableEq, Repr

/-- The key an operation writes. -/
def opKey : Op → List Nat
  | .putOp _ k _ => k
  | .delOp _ k => k

/-- The value an operation writes (`delete` writes the tombstone). -/
def opVal : Op → List Nat
  | .putOp _ _ v => v
  | .delOp _ _ => TOMBSTONE

/-- The wall-clock second of an operation. -/
def opTs : Op → Nat
  | .putOp ts _ _ => ts
  | .delOp ts _ => ts

/-- Run one operation on the handle. -/
def applyOp (st : State) : Op → State
  | .putOp ts k v => put st ts k v
  | .delOp ts k => delete st ts k

/-- Run a sequence of operations on the handle. -/
def run (st : State) (ops : List Op) : State :=
  ops.foldl applyOp st

/-- The last operation in `ops` that writes key `k`, if any. -/
def lastOp (ops : List Op) (k : List Nat) : Option Op :=
  ops.foldl (fun acc o => if opKey o = k then some o else acc) none

/-- Functional update of the abstract key/value map. -/
def updateMap (a : List Nat → Option (List Nat)) (k v : List Nat) :
    List Nat → Option (List Nat) :=
  fun q => if q = k then some v else a q

/-- The abstract effect of one operation. -/
def absApply (a : List Nat → Option (List Nat)) (o : Op) :
    List Nat → Option (List Nat) :=
  updateMap a (opKey o) (opVal o)

/-- The abstract effect of a sequence of operations. -/
def absRun (a : List Nat → Option (List Nat)) (ops : List Op) :
    List Nat → Option (List Nat) :=
  ops.foldl absApply a

/-- Coupling invariant between a handle state and the abstract map of the
keys written through the handle since `open`: the active `.dat` file
mirrors `writer_pos`, and every written key's keydir entry locates the
last value written for it inside the active segment. -/
def Coupled (st : State) (a : List Nat → Option (List Nat)) : Prop :=
  ∃ d, lookupDat st.files st.active_file_id = some d ∧
    d.length = st.writer_pos ∧
    ∀ k v, a k = some v →
      ∃ e, mapGet st.key_dir k = some e ∧
        e.file_id = st.active_file_id ∧
        e.value_size = v.length ∧
        e.value_pos + v.length ≤ st.writer_pos ∧
        byteSlice d e.value_pos v.length = v

theorem encodeEntry_length (c t : Nat) (k v : List Nat) :
    (encodeEntry c t k v).length = 32 + k.length + v.length := by
  simp [encodeEntry, toLE]
  omega

theorem encodeEntry_header_length (c t : Nat) (k v : List Nat) :
    (toLE c ++ toLE t ++ toLE k.length ++ toLE v.length ++ k).length
      = 32 + k.length := by
  simp [toLE]
  omega

theorem encodeEntry_split (c t : Nat) (k v : List Nat) :
    encodeEntry c t k v = (toLE c ++ toLE t ++ toLE k.length ++ toLE v.length ++ k) ++ v := by
  simp [encodeEntry]

theorem lookupDat_appendDat (fs : List DFile) (fid : Nat) (x : List Nat) :
    lookupDat (appendDat fs fid x) fid = (lookupDat fs fid).map (fun d => d ++ x) := by
  induction fs with
  | nil => simp [lookupDat, appendDat]
  | cons f fs ih =>
    by_cases h : f.fid = fid ∧ f.isHint = false
    · simp [lookupDat, appendDat, h]
    · simp [lookupDat, appendDat, h, ih]

theorem byteSlice_append_start (a b : List Nat) (p n : Nat) (hp : p = a.length) :
    byteSlice (a ++ b) p n = b.take n := by
  subst hp
  have := drop_append_add a b 0
  simp only [Nat.add_zero] at this
  simp [byteSlice, this]

theorem coupled_put (st : State) (a : List Nat → Option (List Nat)) (ts : Nat)
    (k v : List Nat) (h : Coupled st a) :
    Coupled (put st ts k v) (updateMap a k v) := by
  obtain ⟨d, hd, hlen, hinv⟩ := h
  have henc := encodeEntry_length 0 ts k v
  refine ⟨d ++ encodeEntry 0 ts k v, ?_, ?_, ?_⟩
  · show lookupDat (put st ts k v).files (put st ts k v).active_file_id = _
    simp only [put, putW, List.take_length]
    rw [lookupDat_appendDat, hd]
    rfl
  · show _ = (put st ts k v).writer_pos
    simp only [put, putW, List.length_append]
    omega
  · intro q w hq
    by_cases hqk : q = k
    · have hv : v = w := by
        have hq' := hq
        unfold updateMap at hq'
        rw [if_pos hqk] at hq'
        exact Option.some.inj hq'
      rw [← hv, hqk]
      refine ⟨⟨st.active_file_id, v.length, st.writer_pos + 8 + 8 + 8 + 8 + k.length, ts⟩,
        ?_, rfl, rfl, ?_, ?_⟩
      · show mapGet (put st ts k v).key_dir k = _
        simp only [put, putW]
        exact mapGet_insert_self _ _ _
      · show _ ≤ (put st ts k v).writer_pos
        simp only [put, putW]
        omega
      · have hsplit := encodeEntry_split 0 ts k v
        have hpre := encodeEntry_header_length 0 ts k v
        have hassoc : d ++ encodeEntry 0 ts k v
            = (d ++ (toLE 0 ++ toLE ts ++ toLE k.length ++ toLE v.length ++ k)) ++ v := by
          simp [encodeEntry]
        have hP : st.writer_pos + 8 + 8 + 8 + 8 + k.length
            = (d ++ (toLE 0 ++ toLE ts ++ toLE k.length ++ toLE v.length ++ k)).length := by
          simp only [List.length_append, hpre, hlen]
          omega
        rw [hassoc, byteSlice_append_start _ _ _ _ hP, List.take_length]
    · have haq : a q = some w := by
        simpa [updateMap, hqk] using hq
      obtain ⟨e, he, hfid, hsz, hbound, hslice⟩ := hinv q w haq
      refine ⟨e, ?_, ?_, hsz, ?_, ?_⟩
      · show mapGet (put st ts k v).key_dir q = _
        simp only [put, putW]
        rw [mapGet_insert_ne _ _ _ _ hqk]
        exact he
      · exact hfid
      · show _ ≤ (put st ts k v).writer_pos
        simp only [put, putW]
        omega
      · rw [byteSlice_append_left _ _ _ _ (by omega)]
        exact hslice

theorem get_def (st : State) (key : List Nat) :
    get st key = (match mapGet st.key_dir key with
      | none => some (.error .KeyNotFound)
      | some kd =>
        match lookupDat st.files kd.file_id with
        | none => some (.error .Io)
        | some data =>
          if kd.value_pos + kd.value_size ≤ data.length then
            some (.ok (byteSlice data kd.value_pos kd.value_size))
          else none) := rfl

theorem coupled_get (st : State) (a : List Nat → Option (List Nat))
    (k v : List Nat) (h : Coupled st a) (hk : a k = some v) :
    get st k = some (.ok v) := by
  obtain ⟨d, hd, hlen, hinv⟩ := h
  obtain ⟨e, he, hfid, hsz, hbound, hslice⟩ := hinv k v hk
  have hle : e.value_pos + e.value_size ≤ d.length := by
    rw [hsz, hlen]
    exact hbound
  rw [get_def]
  split
  · rename_i heq
    rw [heq] at he
    cases he
  · rename_i kd heq
    rw [heq] at he
    obtain rfl : kd = e := Option.some.inj he
    split
    · rename_i heq2
      rw [hfid, hd] at heq2
      cases heq2
    · rename_i data heq2
      rw [hfid, hd] at heq2
      obtain rfl : data = d := (Option.some.inj heq2).symm
      rw [if_pos hle, hsz, hslice]

theorem coupled_mapGet_isSome (st : State) (a : List Nat → Option (List Nat))
    (k v : List Nat) (h : Coupled st a) (hk : a k = some v) :
    (mapGet st.key_dir k).isSome = true := by
  obtain ⟨d, hd, hlen, hinv⟩ := h
  obtain ⟨e, he, _⟩ := hinv k v hk
  simp [he]

theorem lookupDat_eq_none (files : List DFile) (fid : Nat)
    (h : ∀ f ∈ files, f.fid ≠ fid) : lookupDat files fid = none := by
  induction files with
  | nil => rfl
  | cons f fs ih =>
    have hf : ¬ (f.fid = fid ∧ f.isHint = false) := fun hh => h f (by simp) hh.1
    simp only [lookupDat, hf, if_false]
    exact ih (fun g hg => h g (by simp [hg]))

theorem lookupDat_append_none (a b : List DFile) (fid : Nat)
    (h : lookupDat a fid = none) : lookupDat (a ++ b) fid = lookupDat b fid := by
  induction a with
  | nil => simp
  | cons f fs ih =>
    by_cases hf : f.fid = fid ∧ f.isHint = false
    · simp [lookupDat, hf] at h
    · simp only [lookupDat, hf, if_false, List.cons_append] at h ⊢
      exact ih h

theorem gen_file_id_not_present (now : Nat) (files : List DFile) :
    ∀ f ∈ files, f.fid ≠ gen_file_id now files := by
  intro f hf heq
  have hle := foldl_max_le_mem files f hf now
  simp only [gen_file_id] at heq
  omega

theorem openB_fields (now : Nat) (files : List DFile) (st : State)
    (h : openB now files = .ok st) :
    st.active_file_id = gen_file_id now files ∧ st.writer_pos = 0 ∧
      st.files = ensureDat files (gen_file_id now files) ∧
      build_keydir (ensureDat files (gen_file_id now files)) = .ok st.key_dir := by
  simp only [openB] at h
  split at h
  · cases h
  · cases h
    rename_i heq
    exact ⟨rfl, rfl, rfl, heq⟩

theorem openB_coupled (now : Nat) (files : List DFile) (st : State)
    (h : openB now files = .ok st) : Coupled st (fun _ => none) := by
  obtain ⟨hafid, hwp, hfiles, _⟩ := openB_fields now files st h
  have hnone : lookupDat files (gen_file_id now files) = none :=
    lookupDat_eq_none _ _ (gen_file_id_not_present now files)
  have hde : datExists files (gen_file_id now files) = false := by
    simp [datExists, hnone]
  refine ⟨[], ?_, by simp [hwp], by intro k v hv; cases hv⟩
  rw [hfiles, hafid]
  simp only [ensureDat, hde, Bool.false_eq_true, if_false]
  rw [lookupDat_append_none _ _ _ hnone]
  simp [lookupDat]

theorem coupled_applyOp (st : State) (a : List Nat → Option (List Nat))
    (o : Op) (h : Coupled st a) : Coupled (applyOp st o) (absApply a o) := by
  cases o with
  | putOp ts k v => exact coupled_put st a ts k v h
  | delOp ts k => exact coupled_put st a ts k TOMBSTONE h

theorem coupled_run (ops : List Op) :
    ∀ (st : State) (a : List Nat → Option (List Nat)),
      Coupled st a → Coupled (run st ops) (absRun a ops) := by
  induction ops with
  | nil => intro st a h; exact h
  | cons o ops ih =>
    intro st a h
    exact ih _ _ (coupled_applyOp st a o h)

theorem absRun_lastOp (k : List Nat) :
    ∀ (ops : List Op) (a : List Nat → Option (List Nat)) (acc : Option Op),
      (∀ o, acc = some o → a k = some (opVal o)) →
      ∀ o, ops.foldl (fun acc o => if opKey o = k then some o else acc) acc = some o →
        absRun a ops k = some (opVal o) := by
  intro ops
  induction ops with
  | nil =>
    intro a acc hacc o h
    exact hacc o h
  | cons o' ops ih =>
    intro a acc hacc o h
    refine ih (absApply a o') _ ?_ o h
    intro o'' h''
    by_cases hk : opKey o' = k
    · simp only [hk, if_pos rfl] at h''
      cases h''
      simp [absApply, updateMap, ← hk]
    · simp only [hk, if_false] at h''
      have hkk : ¬ k = opKey o' := fun hh => hk hh.symm
      simp only [absApply, updateMap, hkk, if_false]
      exact hacc o'' h''

/-- Merge-free guarantee: for every key `k` and value `v ≠ TOMBSTONE`,
if only `put`s and `delete`s ran since the handle was opened and the
last operation applied to `k` was `put(k, v)`, then `get(k)` returns
`v`.  Histories containing `merge` do not enjoy this guarantee: see the
two-merge computation below, where `merge` deletes the segment the
installed snapshot keydir still points at. -/
theorem last_put_get_merge_free (now : Nat) (files : List DFile) (st0 : State)
    (ops : List Op) (ts : Nat) (k v : List Nat)
    (hopen : openB now files = .ok st0)
    (hlast : lastOp ops k = some (.putOp ts k v))
    (_hv : v ≠ TOMBSTONE) :
    get (run st0 ops) k = some (.ok v) := by
  have hc := coupled_run ops st0 (fun _ => none) (openB_coupled now files st0 hopen)
  have habs : absRun (fun _ => none) ops k = some (opVal (.putOp ts k v)) :=
    absRun_lastOp k ops (fun _ => none) none (by intro o h; cases h) _ hlast
  exact coupled_get _ _ _ _ hc habs

theorem last_put_get_merge_free_concrete :
    get (run st101 [.putOp 5 [1] [2, 3]]) [1] = some (.ok [2, 3]) :=
  last_put_get_merge_free 100 [] st101 [.putOp 5 [1] [2, 3]] 5 [1] [2, 3] rfl rfl (by decide)

/-- C6: the claim says that whenever the last operation applied to `k`
on an open handle was `put(k, v)` with `v ≠ TOMBSTONE`, `get(k)`
returns `v` — with no restriction on the other operations the handle
ran.  The code violates this on merge-containing histories: open an
empty directory at unix second 100 (active segment 101), `put([1],[2])`,
`merge` in the same second 100 (merge id 100; segment 101 survives as
the old active), then `merge` at second 200.  The second merge's
deletion loop removes `101.dat` (101 is neither the merge id 200 nor
the now-active 100) while the snapshot keydir it installs still maps
`[1]` to segment 101, so `get([1])` fails opening the deleted file and
returns `Err(Io)` instead of `[2]` — even though the last operation
applied to `[1]` was the put, and `get` still returned `[2]` after the
first merge. -/
theorem C6_merge_breaks_last_put :
    (merge (put st101 10 [1] [2]) 100).map (Except.map (fun st2 => get st2 [1]))
      = some (.ok (some (.ok [2]))) ∧
    (merge (put st101 10 [1] [2]) 100).map (Except.map (fun st2 =>
      (merge st2 200).map (Except.map (fun st3 => get st3 [1]))))
      = some (.ok (some (.ok (some (.error .Io))))) ∧
    ([2] : List Nat) ≠ TOMBSTONE :=
  ⟨rfl, rfl, by decide⟩

/-- C9: before any merge, for every key `k` whose last operation was
`delete(k)`, `get(k)` returns exactly the 13 tombstone sentinel bytes
`__TOMBSTONE__`, and the keydir entry for `k` remains present. -/
theorem C9_tombstone_visible (now : Nat) (files : List DFile) (st0 : State)
    (ops : List Op) (ts : Nat) (k : List Nat)
    (hopen : openB now files = .ok st0)
    (hlast : lastOp ops k = some (.delOp ts k)) :
    get (run st0 ops) k = some (.ok TOMBSTONE) ∧
    (mapGet (run st0 ops).key_dir k).isSome = true ∧
    TOMBSTONE.length = 13 := by
  have hc := coupled_run ops st0 (fun _ => none) (openB_coupled now files st0 hopen)
  have habs : absRun (fun _ => none) ops k = some (opVal (.delOp ts k)) :=
    absRun_lastOp k ops (fun _ => none) none (by intro o h; cases h) _ hlast
  exact ⟨coupled_get _ _ _ _ hc habs,
    coupled_mapGet_isSome _ _ _ _ hc habs, rfl⟩

theorem C9_tombstone_visible_witness :
    get (run st101 [.putOp 5 [1] [9], .delOp 6 [1]]) [1] = some (.ok TOMBSTONE) ∧
    (mapGet (run st101 [.putOp 5 [1] [9], .delOp 6 [1]]).key_dir [1]).isSome = true ∧
    TOMBSTONE.length = 13 :=
  C9_tombstone_visible 100 [] st101 [.putOp 5 [1] [9], .delOp 6 [1]] 6 [1] rfl rfl

/-! ### Recovery lemmas for the reopen round trip -/

theorem gen_file_id_gt (now : Nat) (files : List DFile) :
    ∀ f ∈ files, f.fid < gen_file_id now files := by
  intro f hf
  have hle := foldl_max_le_mem files f hf now
  simp only [gen_file_id]
  omega

theorem gen_file_id_gt_now (now : Nat) (files : List DFile) :
    now < gen_file_id now files := by
  have := foldl_max_le_init files now
  simp only [gen_file_id]
  omega

theorem dats_append (a b : List DFile) : dats (a ++ b) = dats a ++ dats b := by
  simp [dats]

theorem mem_dats (fs : List DFile) (g : DFile) (h : g ∈ dats fs) : g ∈ fs :=
  (List.mem_filter.mp h).1

theorem mem_insertSorted (f g : DFile) (l : List DFile) :
    g ∈ insertSorted f l ↔ g = f ∨ g ∈ l := by
  induction l with
  | nil => simp [insertSorted]
  | cons x xs ih =>
    by_cases h : f.fid ≤ x.fid
    · simp [insertSorted, h]
    · simp [insertSorted, h, ih]
      tauto

theorem mem_sortByFid (l : List DFile) (g : DFile) :
    g ∈ sortByFid l ↔ g ∈ l := by
  induction l with
  | nil => simp [sortByFid]
  | cons x xs ih =>
    show g ∈ insertSorted x (sortByFid xs) ↔ _
    rw [mem_insertSorted, ih]
    simp

theorem insertSorted_append_max (g f : DFile) (l : List DFile) (h : g.fid ≤ f.fid) :
    insertSorted g (l ++ [f]) = insertSorted g l ++ [f] := by
  induction l with
  | nil => simp [insertSorted, h]
  | cons x xs ih =>
    by_cases hx : g.fid ≤ x.fid
    · simp [insertSorted, hx]
    · simp [insertSorted, hx, ih]

theorem sortByFid_append_max (l : List DFile) (f : DFile)
    (h : ∀ g ∈ l, g.fid ≤ f.fid) :
    sortByFid (l ++ [f]) = sortByFid l ++ [f] := by
  induction l with
  | nil => rfl
  | cons x xs ih =>
    show insertSorted x (sortByFid (xs ++ [f])) = insertSorted x (sortByFid xs) ++ [f]
    rw [ih (fun g hg => h g (by simp [hg]))]
    exact insertSorted_append_max x f (sortByFid xs) (h x (by simp))

theorem findHint_eq_none (files : List DFile) (fid : Nat)
    (h : ∀ f ∈ files, f.isHint = true → f.fid ≠ fid) :
    findHint files fid = none := by
  induction files with
  | nil => rfl
  | cons f fs ih =>
    have hf : ¬ (f.fid = fid ∧ f.isHint = true) := fun hh => h f (by simp) hh.2 hh.1
    simp only [findHint, hf, if_false]
    exact ih (fun g hg ht => h g (by simp [hg]) ht)

theorem findHint_append_dats (a b : List DFile) (hb : ∀ f ∈ b, f.isHint = false) :
    ∀ n, findHint (a ++ b) n = findHint a n := by
  intro n
  induction a with
  | nil =>
    simp only [List.nil_append]
    exact findHint_eq_none b n (fun f hf ht => by
      have := hb f hf
      rw [this] at ht
      cases ht)
  | cons f fs ih =>
    by_cases hf : f.fid = n ∧ f.isHint = true
    · simp [findHint, hf]
    · simp only [List.cons_append, findHint, hf, if_false]
      exact ih

theorem appendDat_append (a b : List DFile) (fid : Nat) (d : List Nat) :
    appendDat (a ++ b) fid d = appendDat a fid d ++ appendDat b fid d := by
  induction a with
  | nil => rfl
  | cons f fs ih => simp [appendDat, ih]

theorem appendDat_not_present (a : List DFile) (fid : Nat) (d : List Nat)
    (h : ∀ f ∈ a, f.fid ≠ fid) : appendDat a fid d = a := by
  induction a with
  | nil => rfl
  | cons f fs ih =>
    have hf : ¬ (f.fid = fid ∧ f.isHint = false) := fun hh => h f (by simp) hh.1
    simp only [appendDat, hf, if_false]
    rw [ih (fun g hg => h g (by simp [hg]))]

theorem ensureDat_not_present (files : List DFile) (fid : Nat)
    (h : ∀ f ∈ files, f.fid ≠ fid) :
    ensureDat files fid = files ++ [⟨fid, false, []⟩] := by
  have : lookupDat files fid = none := lookupDat_eq_none files fid h
  simp [ensureDat, datExists, this]

theorem datLoop_stop (fid : Nat) (data : List Nat) (pos : Nat)
    (h : ¬ pos < data.length) :
    ∀ (fuel buf : Nat) (m : KDMap), datLoop fid data fuel pos buf m = .ok m := by
  intro fuel buf m
  cases fuel with
  | zero => rfl
  | succ n => simp [datLoop, h]

theorem scanDat_nil (fid : Nat) (m : KDMap) : scanDat fid [] m = .ok m := rfl

theorem datLoop_succ (fid : Nat) (data : List Nat) (fuel pos buf : Nat) (m : KDMap) :
    datLoop fid data (fuel + 1) pos buf m =
      if pos < data.length then
        let b1 := (readU64 data (pos + 8)).getD buf
        let b2 := (readU64 data (pos + 16)).getD b1
        let b3 := (readU64 data (pos + 24)).getD b2
        if b2 ≤ data.length - (pos + 32) then
          datLoop fid data fuel (pos + 32 + b2 + b3) b3
            (mapInsert m (byteSlice data (pos + 32) b2) ⟨fid, b3, pos + 32 + b2, b1⟩)
        else .error .Io
      else .ok m := rfl

theorem take_append_length (a b : List Nat) : (a ++ b).take a.length = a := by
  rw [take_append_le a b _ le_rfl, List.take_length]

theorem encodeEntry_assoc1 (c t : Nat) (k v : List Nat) :
    encodeEntry c t k v
      = toLE c ++ (toLE t ++ (toLE k.length ++ (toLE v.length ++ (k ++ v)))) := by
  simp [encodeEntry]

theorem encodeEntry_assoc2 (c t : Nat) (k v : List Nat) :
    encodeEntry c t k v
      = (toLE c ++ toLE t) ++ (toLE k.length ++ (toLE v.length ++ (k ++ v))) := by
  simp [encodeEntry]

theorem encodeEntry_assoc3 (c t : Nat) (k v : List Nat) :
    encodeEntry c t k v
      = (toLE c ++ toLE t ++ toLE k.length) ++ (toLE v.length ++ (k ++ v)) := by
  simp [encodeEntry]

theorem encodeEntry_assoc4 (c t : Nat) (k v : List Nat) :
    encodeEntry c t k v
      = (toLE c ++ toLE t ++ toLE k.length ++ toLE v.length) ++ (k ++ v) := by
  simp [encodeEntry]

theorem encodeEntry_slice_ts (c t : Nat) (k v : List Nat) :
    byteSlice (encodeEntry c t k v) 8 8 = toLE t := by
  rw [encodeEntry_assoc1, byteSlice_append_start (toLE c) _ 8 8 rfl]
  exact take_append_length (toLE t) _

theorem encodeEntry_slice_ksz (c t : Nat) (k v : List Nat) :
    byteSlice (encodeEntry c t k v) 16 8 = toLE k.length := by
  rw [encodeEntry_assoc2, byteSlice_append_start (toLE c ++ toLE t) _ 16 8 rfl]
  exact take_append_length (toLE k.length) _

theorem encodeEntry_slice_vsz (c t : Nat) (k v : List Nat) :
    byteSlice (encodeEntry c t k v) 24 8 = toLE v.length := by
  rw [encodeEntry_assoc3,
    byteSlice_append_start (toLE c ++ toLE t ++ toLE k.length) _ 24 8 rfl]
  exact take_append_length (toLE v.length) _

theorem encodeEntry_slice_key (c t : Nat) (k v : List Nat) :
    byteSlice (encodeEntry c t k v) 32 k.length = k := by
  rw [encodeEntry_assoc4,
    byteSlice_append_start (toLE c ++ toLE t ++ toLE k.length ++ toLE v.length) _ 32 k.length rfl]
  exact take_append_length k v

theorem encodeEntry_slice_value (c t : Nat) (k v : List Nat) :
    byteSlice (encodeEntry c t k v) (32 + k.length) v.length = v := by
  rw [encodeEntry_split,
    byteSlice_append_start _ _ _ _ (encodeEntry_header_length c t k v).symm,
    List.take_length]

theorem scanDat_single_record (fid ts : Nat) (k v : List Nat) (m : KDMap)
    (hts : ts < 18446744073709551616)
    (hk : k.length < 18446744073709551616)
    (hv : v.length < 18446744073709551616) :
    scanDat fid (encodeEntry 0 ts k v) m =
      .ok (mapInsert m k ⟨fid, v.length, 32 + k.length, ts⟩) := by
  have hlen := encodeEntry_length 0 ts k v
  have hr1 : readU64 (encodeEntry 0 ts k v) 8 = some ts := by
    rw [readU64, if_pos (by omega), encodeEntry_slice_ts, fromLE_toLE ts hts]
  have hr2 : readU64 (encodeEntry 0 ts k v) 16 = some k.length := by
    rw [readU64, if_pos (by omega), encodeEntry_slice_ksz, fromLE_toLE k.length hk]
  have hr3 : readU64 (encodeEntry 0 ts k v) 24 = some v.length := by
    rw [readU64, if_pos (by omega), encodeEntry_slice_vsz, fromLE_toLE v.length hv]
  show datLoop fid (encodeEntry 0 ts k v) ((encodeEntry 0 ts k v).length + 1) 0 0 m = _
  rw [datLoop_succ, if_pos (by omega)]
  simp only [Nat.zero_add, hr1, hr2, hr3, Option.getD_some]
  rw [if_pos (by omega)]
  rw [datLoop_stop fid (encodeEntry 0 ts k v) (32 + k.length + v.length) (by omega)]
  rw [encodeEntry_slice_key]

theorem bkLoop_append (files : List DFile) (l₁ : List DFile) :
    ∀ (l₂ : List DFile) (p : List Nat) (m : KDMap),
      bkLoop files (l₁ ++ l₂) p m =
        match bkLoop files l₁ p m with
        | .error e => .error e
        | .ok (m', p') => bkLoop files l₂ p' m' := by
  induction l₁ with
  | nil => intro l₂ p m; rfl
  | cons f fs ih =>
    intro l₂ p m
    by_cases hp : f.fid ∈ p
    · simp only [List.cons_append, bkLoop, if_pos hp]
      exact ih l₂ p m
    · simp only [List.cons_append, bkLoop, if_neg hp]
      cases hpf : processFile files m f with
      | error e => rfl
      | ok m' => exact ih l₂ (f.fid :: p) m'

theorem bkLoop_processed (files : List DFile) (l : List DFile) :
    ∀ (p : List Nat) (m m' : KDMap) (p' : List Nat),
      bkLoop files l p m = .ok (m', p') →
      ∀ x, x ∈ p' → x ∈ p ∨ ∃ f, f ∈ l ∧ f.fid = x := by
  induction l with
  | nil =>
    intro p m m' p' h x hx
    cases h
    exact Or.inl hx
  | cons f fs ih =>
    intro p m m' p' h x hx
    simp only [bkLoop] at h
    by_cases hp : f.fid ∈ p
    · rw [if_pos hp] at h
      rcases ih p m m' p' h x hx with h1 | ⟨g, hg, hgx⟩
      · exact Or.inl h1
      · exact Or.inr ⟨g, by simp [hg], hgx⟩
    · rw [if_neg hp] at h
      cases hpf : processFile files m f with
      | error e => rw [hpf] at h; cases h
      | ok m₂ =>
        rw [hpf] at h
        rcases ih (f.fid :: p) m₂ m' p' h x hx with h1 | ⟨g, hg, hgx⟩
        · rcases List.mem_cons.mp h1 with h2 | h2
          · exact Or.inr ⟨f, by simp, h2.symm⟩
          · exact Or.inl h2
        · exact Or.inr ⟨g, by simp [hg], hgx⟩

theorem bkLoop_congr (files files' : List DFile)
    (hh : ∀ n, findHint files n = findHint files' n) (l : List DFile) :
    ∀ (p : List Nat) (m : KDMap), bkLoop files l p m = bkLoop files' l p m := by
  induction l with
  | nil => intro p m; rfl
  | cons f fs ih =>
    intro p m
    simp only [bkLoop]
    by_cases hp : f.fid ∈ p
    · rw [if_pos hp, if_pos hp]
      exact ih p m
    · rw [if_neg hp, if_neg hp]
      have hpf : processFile files m f = processFile files' m f := by
        simp only [processFile, hh f.fid]
      rw [hpf]
      cases processFile files' m f with
      | error e => rfl
      | ok m' => exact ih (f.fid :: p) m'

theorem build_keydir_ok (files : List DFile) (m : KDMap)
    (h : build_keydir files = .ok m) :
    ∃ p, bkLoop files (sortByFid (dats files)) [] [] = .ok (m, p) := by
  unfold build_keydir at h
  split at h
  · cases h
  · rename_i m' p' heq
    cases h
    exact ⟨p', heq⟩

theorem openB_of_build (now : Nat) (files : List DFile) (m : KDMap)
    (h : build_keydir (ensureDat files (gen_file_id now files)) = .ok m) :
    openB now files
      = .ok ⟨m, gen_file_id now files, 0, ensureDat files (gen_file_id now files)⟩ := by
  simp only [openB, h]

theorem bkLoop_single_dat (files : List DFile) (f : DFile) (p : List Nat) (m : KDMap)
    (hp : f.fid ∉ p) (hh : findHint files f.fid = none) :
    bkLoop files [f] p m =
      match scanDat f.fid f.data m with
      | .error e => .error e
      | .ok m' => .ok (m', f.fid :: p) := by
  simp only [bkLoop, if_neg hp, processFile, hh]

theorem get_of_entry (st : State) (k : List Nat) (e : KeyDir) (d : List Nat)
    (he : mapGet st.key_dir k = some e)
    (hd : lookupDat st.files e.file_id = some d)
    (hle : e.value_pos + e.value_size ≤ d.length) :
    get st k = some (.ok (byteSlice d e.value_pos e.value_size)) := by
  rw [get_def]
  split
  · rename_i heq
    rw [heq] at he
    cases he
  · rename_i kd heq
    rw [heq] at he
    obtain rfl : kd = e := Option.some.inj he
    split
    · rename_i heq2
      rw [hd] at heq2
      cases heq2
    · rename_i data heq2
      rw [hd] at heq2
      obtain rfl : data = d := (Option.some.inj heq2).symm
      rw [if_pos hle]


/-- Core of the reopen round trip: if recovery of `files0` plus a fresh
empty segment `fid1` yields keydir `m1`, and scanning the bytes `enc`
now sitting in segment `fid1` inserts `(k, e1)` into `m1`, then recovery
of the directory after the put and the second open (segment `fid2`
fresh and empty) yields exactly `mapInsert m1 k e1`. -/
theorem reopen_core (files0 : List DFile) (fid1 fid2 : Nat) (enc : List Nat)
    (m1 : KDMap) (k : List Nat) (e1 : KeyDir)
    (hlt1 : ∀ f ∈ files0, f.fid < fid1)
    (hf12 : fid1 < fid2)
    (hbk1 : build_keydir (files0 ++ [⟨fid1, false, []⟩]) = .ok m1)
    (hscan : scanDat fid1 enc m1 = .ok (mapInsert m1 k e1)) :
    build_keydir ((files0 ++ [⟨fid1, false, enc⟩]) ++ [⟨fid2, false, []⟩])
      = .ok (mapInsert m1 k e1) := by
  have hne1 : ∀ f ∈ files0, f.fid ≠ fid1 := fun f hf => Nat.ne_of_lt (hlt1 f hf)
  have hmemS0 : ∀ f ∈ sortByFid (dats files0), f.fid < fid1 := fun f hf =>
    hlt1 f (mem_dats files0 f ((mem_sortByFid (dats files0) f).mp hf))
  have hle0 : ∀ g ∈ dats files0, g.fid ≤ fid1 :=
    fun g hg => Nat.le_of_lt (hlt1 g (mem_dats files0 g hg))
  -- sorted candidates of the first open
  have hsort1 : sortByFid (dats (files0 ++ [⟨fid1, false, []⟩]))
      = sortByFid (dats files0) ++ [⟨fid1, false, []⟩] := by
    rw [dats_append]
    exact sortByFid_append_max (dats files0) _ hle0
  -- hints of the first open's directory
  have hfh : ∀ n, (∀ f ∈ files0, f.fid ≠ n) →
      findHint (files0 ++ [⟨fid1, false, []⟩]) n = none := by
    intro n hn
    rw [findHint_append_dats files0 [⟨fid1, false, []⟩] (by simp)]
    exact findHint_eq_none files0 n (fun f hf _ => hn f hf)
  -- dissect the first open's recovery
  obtain ⟨p1, hloop1⟩ := build_keydir_ok _ m1 hbk1
  rw [hsort1, bkLoop_append] at hloop1
  cases hA : bkLoop (files0 ++ [⟨fid1, false, []⟩]) (sortByFid (dats files0)) [] [] with
  | error e => rw [hA] at hloop1; cases hloop1
  | ok pr =>
  obtain ⟨mA, pA⟩ := pr
  rw [hA] at hloop1
  have hpAmem : ∀ x ∈ pA, ∃ f, f ∈ sortByFid (dats files0) ∧ f.fid = x := by
    intro x hx
    rcases bkLoop_processed _ _ [] [] mA pA hA x hx with h0 | ⟨f, hf, hfx⟩
    · cases h0
    · exact ⟨f, hf, hfx⟩
  have hfid1pA : fid1 ∉ pA := by
    intro hmem
    obtain ⟨f, hf, hfx⟩ := hpAmem fid1 hmem
    exact absurd hfx (Nat.ne_of_lt (hmemS0 f hf))
  have hfid2pA : fid2 ∉ pA := by
    intro hmem
    obtain ⟨f, hf, hfx⟩ := hpAmem fid2 hmem
    exact absurd hfx (Nat.ne_of_lt (Nat.lt_trans (hmemS0 f hf) hf12))
  replace hloop1 : bkLoop (files0 ++ [⟨fid1, false, []⟩]) [⟨fid1, false, []⟩] pA mA
      = Except.ok (m1, p1) := hloop1
  rw [bkLoop_single_dat _ ⟨fid1, false, []⟩ pA mA hfid1pA (hfh fid1 hne1)] at hloop1
  replace hloop1 : Except.ok (mA, fid1 :: pA) = Except.ok (m1, p1) := hloop1
  have hmAm1 : mA = m1 := by
    injection hloop1 with h
    injection h with h1 h2
  rw [hmAm1] at hA
  -- the second open's directory has the same hints
  have hcongr : ∀ n,
      findHint ((files0 ++ [⟨fid1, false, enc⟩]) ++ [⟨fid2, false, []⟩]) n
        = findHint (files0 ++ [⟨fid1, false, []⟩]) n := by
    intro n
    rw [findHint_append_dats (files0 ++ [(⟨fid1, false, enc⟩ : DFile)])
      [(⟨fid2, false, []⟩ : DFile)] (by simp)]
    rw [findHint_append_dats files0 [(⟨fid1, false, enc⟩ : DFile)] (by simp)]
    rw [findHint_append_dats files0 [(⟨fid1, false, []⟩ : DFile)] (by simp)]
  -- sorted candidates of the second open
  have hsort3 : sortByFid (dats ((files0 ++ [⟨fid1, false, enc⟩]) ++ [⟨fid2, false, []⟩]))
      = (sortByFid (dats files0) ++ [⟨fid1, false, enc⟩]) ++ [⟨fid2, false, []⟩] := by
    rw [dats_append, dats_append]
    have hub2 : ∀ g ∈ dats files0 ++ dats [(⟨fid1, false, enc⟩ : DFile)],
        g.fid ≤ fid2 := by
      intro g hg
      rcases List.mem_append.mp hg with hg0 | hg1
      · exact Nat.le_of_lt (Nat.lt_trans (hlt1 g (mem_dats files0 g hg0)) hf12)
      · rcases List.mem_singleton.mp hg1 with rfl
        exact Nat.le_of_lt hf12
    have hd2 : dats [(⟨fid2, false, []⟩ : DFile)] = [⟨fid2, false, []⟩] := rfl
    rw [hd2, sortByFid_append_max (dats files0 ++ dats [(⟨fid1, false, enc⟩ : DFile)])
      ⟨fid2, false, []⟩ hub2]
    have hd1 : dats [(⟨fid1, false, enc⟩ : DFile)] = [⟨fid1, false, enc⟩] := rfl
    rw [hd1, sortByFid_append_max (dats files0) ⟨fid1, false, enc⟩ hle0]
  -- run the second open's recovery
  have hinner : bkLoop (files0 ++ [⟨fid1, false, []⟩])
      (sortByFid (dats files0) ++ [⟨fid1, false, enc⟩]) [] []
      = Except.ok (mapInsert m1 k e1, fid1 :: pA) := by
    rw [bkLoop_append, hA]
    show bkLoop (files0 ++ [⟨fid1, false, []⟩]) [⟨fid1, false, enc⟩] pA m1 = _
    rw [bkLoop_single_dat _ ⟨fid1, false, enc⟩ pA m1 hfid1pA (hfh fid1 hne1)]
    show (match scanDat fid1 enc m1 with
      | .error e => Except.error e
      | .ok m' => Except.ok (m', fid1 :: pA)) = _
    rw [hscan]
  have hfull : bkLoop (files0 ++ [⟨fid1, false, []⟩])
      ((sortByFid (dats files0) ++ [⟨fid1, false, enc⟩]) ++ [⟨fid2, false, []⟩]) [] []
      = Except.ok (mapInsert m1 k e1, fid2 :: fid1 :: pA) := by
    rw [bkLoop_append, hinner]
    show bkLoop (files0 ++ [⟨fid1, false, []⟩]) [⟨fid2, false, []⟩] (fid1 :: pA)
      (mapInsert m1 k e1) = _
    have hmem2 : fid2 ∉ fid1 :: pA := by
      intro hmem
      rcases List.mem_cons.mp hmem with h | h
      · exact absurd h.symm (Nat.ne_of_lt hf12)
      · exact hfid2pA h
    have hfh2 : findHint (files0 ++ [⟨fid1, false, []⟩]) fid2 = none :=
      hfh fid2 (fun f hf => Nat.ne_of_lt (Nat.lt_trans (hlt1 f hf) hf12))
    rw [bkLoop_single_dat _ ⟨fid2, false, []⟩ (fid1 :: pA) (mapInsert m1 k e1) hmem2 hfh2]
    show (match scanDat fid2 [] (mapInsert m1 k e1) with
      | .error e => Except.error e
      | .ok m' => Except.ok (m', fid2 :: fid1 :: pA)) = _
    rw [scanDat_nil]
  unfold build_keydir
  rw [hsort3, bkLoop_congr _ (files0 ++ [⟨fid1, false, []⟩]) hcongr, hfull]

/-- C7: round trip across reopen.  If `open(d)` succeeded yielding handle
`st1`, then after `put(k, v)` and `close()` (a no-op on the directory), a
second `open(d)` succeeds and `get(k)` on the new handle returns `v`: the
on-disk record written by `put` is recovered into a keydir entry whose
`value_pos`/`value_size` locate exactly the value bytes.  The bound
hypotheses say the timestamp and the key and value lengths fit in `u64`. -/
theorem C7_reopen_roundtrip (files0 : List DFile) (now1 now2 ts : Nat)
    (k v : List Nat) (st1 : State)
    (hts : ts < 18446744073709551616)
    (hk : k.length < 18446744073709551616)
    (hv : v.length < 18446744073709551616)
    (hopen1 : openB now1 files0 = .ok st1) :
    ∃ st2, openB now2 (put st1 ts k v).files = .ok st2 ∧
      get st2 k = some (.ok v) := by
  obtain ⟨hafid, hwp, hfiles, hbk1⟩ := openB_fields now1 files0 st1 hopen1
  have hlt1 : ∀ f ∈ files0, f.fid < gen_file_id now1 files0 := gen_file_id_gt now1 files0
  have hne1 : ∀ f ∈ files0, f.fid ≠ gen_file_id now1 files0 :=
    fun f hf => Nat.ne_of_lt (hlt1 f hf)
  have hens1 : ensureDat files0 (gen_file_id now1 files0)
      = files0 ++ [⟨gen_file_id now1 files0, false, []⟩] :=
    ensureDat_not_present files0 _ hne1
  have hputfiles : (put st1 ts k v).files
      = files0 ++ [⟨gen_file_id now1 files0, false, encodeEntry 0 ts k v⟩] := by
    show appendDat st1.files st1.active_file_id
      ((encodeEntry 0 ts k v).take (encodeEntry 0 ts k v).length) = _
    rw [List.take_length, hfiles, hafid, hens1, appendDat_append,
      appendDat_not_present files0 _ _ hne1]
    simp [appendDat]
  have hf12 : gen_file_id now1 files0 < gen_file_id now2
      (files0 ++ [⟨gen_file_id now1 files0, false, encodeEntry 0 ts k v⟩]) :=
    gen_file_id_gt now2 _ ⟨gen_file_id now1 files0, false, encodeEntry 0 ts k v⟩ (by simp)
  have hbk1' : build_keydir (files0 ++ [⟨gen_file_id now1 files0, false, []⟩])
      = .ok st1.key_dir := by
    rw [← hens1]
    exact hbk1
  have hscan : scanDat (gen_file_id now1 files0) (encodeEntry 0 ts k v) st1.key_dir
      = .ok (mapInsert st1.key_dir k
          ⟨gen_file_id now1 files0, v.length, 32 + k.length, ts⟩) :=
    scanDat_single_record _ ts k v st1.key_dir hts hk hv
  have hcore := reopen_core files0 (gen_file_id now1 files0)
    (gen_file_id now2 (files0 ++ [⟨gen_file_id now1 files0, false, encodeEntry 0 ts k v⟩]))
    (encodeEntry 0 ts k v) st1.key_dir k
    ⟨gen_file_id now1 files0, v.length, 32 + k.length, ts⟩
    hlt1 hf12 hbk1' hscan
  have hne2 : ∀ f ∈ files0 ++ [⟨gen_file_id now1 files0, false, encodeEntry 0 ts k v⟩],
      f.fid ≠ gen_file_id now2
        (files0 ++ [⟨gen_file_id now1 files0, false, encodeEntry 0 ts k v⟩]) :=
    fun f hf => Nat.ne_of_lt (gen_file_id_gt now2 _ f hf)
  have hens2 : ensureDat
      (files0 ++ [⟨gen_file_id now1 files0, false, encodeEntry 0 ts k v⟩])
      (gen_file_id now2 (files0 ++ [⟨gen_file_id now1 files0, false, encodeEntry 0 ts k v⟩]))
      = (files0 ++ [⟨gen_file_id now1 files0, false, encodeEntry 0 ts k v⟩])
        ++ [⟨gen_file_id now2
            (files0 ++ [⟨gen_file_id now1 files0, false, encodeEntry 0 ts k v⟩]),
          false, []⟩] :=
    ensureDat_not_present _ _ hne2
  have hopen2 := openB_of_build now2
    (files0 ++ [⟨gen_file_id now1 files0, false, encodeEntry 0 ts k v⟩])
    (mapInsert st1.key_dir k
      ⟨gen_file_id now1 files0, v.length, 32 + k.length, ts⟩)
    (by rw [hens2]; exact hcore)
  rw [hens2] at hopen2
  refine ⟨_, by rw [hputfiles]; exact hopen2, ?_⟩
  have hlook : lookupDat
      ((files0 ++ [⟨gen_file_id now1 files0, false, encodeEntry 0 ts k v⟩])
        ++ [⟨gen_file_id now2
            (files0 ++ [⟨gen_file_id now1 files0, false, encodeEntry 0 ts k v⟩]),
          false, []⟩])
      (gen_file_id now1 files0) = some (encodeEntry 0 ts k v) := by
    rw [List.append_assoc]
    rw [lookupDat_append_none files0 _ _ (lookupDat_eq_none files0 _ hne1)]
    simp [lookupDat]
  have hgot := get_of_entry
    ⟨mapInsert st1.key_dir k
        ⟨gen_file_id now1 files0, v.length, 32 + k.length, ts⟩,
      gen_file_id now2 (files0 ++ [⟨gen_file_id now1 files0, false, encodeEntry 0 ts k v⟩]),
      0,
      (files0 ++ [⟨gen_file_id now1 files0, false, encodeEntry 0 ts k v⟩])
        ++ [⟨gen_file_id now2
            (files0 ++ [⟨gen_file_id now1 files0, false, encodeEntry 0 ts k v⟩]),
          false, []⟩]⟩
    k ⟨gen_file_id now1 files0, v.length, 32 + k.length, ts⟩ (encodeEntry 0 ts k v)
    (mapGet_insert_self st1.key_dir k _)
    hlook
    (by
      show 32 + k.length + v.length ≤ (encodeEntry 0 ts k v).length
      rw [encodeEntry_length])
  rw [hgot]
  show some (Except.ok (byteSlice (encodeEntry 0 ts k v) (32 + k.length) v.length)) = _
  rw [encodeEntry_slice_value]

theorem C7_reopen_roundtrip_witness :
    ∃ st2, openB 200 (put st101 1 [1] [2]).files = .ok st2 ∧
      get st2 [1] = some (.ok [2]) :=
  C7_reopen_roundtrip [] 100 200 1 [1] [2] st101
    (by decide) (by decide) (by decide) rfl
